import Mathlib

/-!
Verification of the blog content pipeline (metadata extraction, post registry,
tag index, feed generation, date normalization).

The repository ships the page driver (`src/pages/index.tsx`) and the authored
documents; the pipeline libraries (`lib/getPostData`, `lib/date`, `lib/rss`)
are not part of the provided sources, so their behaviour is modelled from the
specification and marked as such on each definition.
-/

namespace Blog

/-- Modelled from the spec: a canonical calendar date (year, month, day)
produced by the Date Normalizer, ordered by year, then month, then day. -/
structure CDate where
  year : Nat
  month : Nat
  day : Nat
deriving DecidableEq, Repr

/-- Modelled from the spec: a `Post` record as produced by the Metadata
Extractor.  `srcDoc` records the document the post came from, so that
`DuplicatePathError` can name both offending document sources. -/
structure Post where
  srcDoc : String
  path : String
  title : String
  date : CDate
  tags : List String
  desc : String
  imageURL : Option String
deriving DecidableEq, Repr

/-- Modelled from the spec: the raw metadata block attached to a document. -/
structure RawMetadata where
  title : Option String
  date : Option String
  tags : Option (List String)
  desc : Option String
  imageURL : Option String
deriving DecidableEq, Repr

/-- Reason carried by a `MetadataError`. -/
inductive Reason where
  | missing
  | invalid
deriving DecidableEq, Repr

/-- Modelled from the spec: `MetadataError(documentPath, fieldName, reason)`. -/
structure MetadataError where
  documentPath : String
  fieldName : String
  reason : Reason
deriving DecidableEq, Repr

/-- Modelled from the spec:
`DuplicatePathError(path, documentPathA, documentPathB)`. -/
structure DuplicatePathError where
  path : String
  documentPathA : String
  documentPathB : String
deriving DecidableEq, Repr

/-! ## Date Normalizer -/

/-- Number of days in a month, with the Gregorian leap-year rule for
February. -/
def daysInMonth (y m : Nat) : Nat :=
  if m = 2 then
    if y % 4 = 0 ∧ (y % 100 ≠ 0 ∨ y % 400 = 0) then 29 else 28
  else if m = 4 ∨ m = 6 ∨ m = 9 ∨ m = 11 then 30
  else 31

/-- Numeric value of a decimal digit character. -/
def digVal (c : Char) : Nat := c.toNat - 48

/-- Modelled from the spec: the Date Normalizer `normalize`.  Accepts exactly
ISO 8601 calendar dates `YYYY-MM-DD` denoting a valid calendar date;
anything else is a parse failure (`none`). -/
def parseDate (s : String) : Option CDate :=
  match s.data with
  | [y1, y2, y3, y4, '-', m1, m2, '-', d1, d2] =>
    if y1.isDigit ∧ y2.isDigit ∧ y3.isDigit ∧ y4.isDigit ∧
       m1.isDigit ∧ m2.isDigit ∧ d1.isDigit ∧ d2.isDigit then
      let y := 1000 * digVal y1 + 100 * digVal y2 + 10 * digVal y3 + digVal y4
      let m := 10 * digVal m1 + digVal m2
      let d := 10 * digVal d1 + digVal d2
      if 1 ≤ m ∧ m ≤ 12 ∧ 1 ≤ d ∧ d ≤ daysInMonth y m then
        some ⟨y, m, d⟩
      else none
    else none
  | _ => none

/-! ## Path derivation -/

/-- Split a character list into the segments between `'/'` separators. -/
def splitSegs : List Char → List (List Char)
  | [] => [[]]
  | c :: cs =>
    match splitSegs cs with
    | [] => if c = '/' then [[], []] else [[c]]
    | s :: rest => if c = '/' then [] :: s :: rest else (c :: s) :: rest

/-- Strip the extension (everything from the last `'.'` on) from a file-name
segment; a segment without a dot is returned unchanged. -/
def stripExt (s : List Char) : List Char :=
  if s.contains '.' then ((s.reverse.dropWhile (fun c => c ≠ '.')).drop 1).reverse
  else s

/-- Join segments with `'/'` separators. -/
def joinSegs : List (List Char) → List Char
  | [] => []
  | [s] => s
  | s :: rest => s ++ '/' :: joinSegs rest

/-- Process the reversed segment list: strip the extension from the last
segment and drop it entirely when it is `index` (or empty after
stripping). -/
def collapseRev : List (List Char) → List (List Char)
  | [] => []
  | lastSeg :: revInit =>
    if stripExt lastSeg = ['i', 'n', 'd', 'e', 'x'] ∨ stripExt lastSeg = []
    then revInit.reverse
    else revInit.reverse ++ [stripExt lastSeg]

/-- Modelled from the spec: derive the canonical site-relative `path` from a
document location: strip the source extension, collapse an `index` leaf onto
its parent directory, ensure a single leading `/` and no trailing `/`
(except for the root path `/`). -/
def derivePathL (doc : List Char) : List Char :=
  '/' :: joinSegs
    ((collapseRev ((splitSegs doc).filter (fun s => s ≠ [])).reverse).filter
      (fun s => s ≠ []))

/-- String-level wrapper for `derivePathL`. -/
def derivePath (doc : String) : String := ⟨derivePathL doc.data⟩

/-! ## Tag normalization -/

/-- Whitespace test used when trimming tags. -/
def isWS (c : Char) : Bool := c = ' ' ∨ c = '\t' ∨ c = '\n' ∨ c = '\r'

/-- Trim surrounding whitespace from a character list. -/
def trimL (s : List Char) : List Char :=
  ((s.dropWhile isWS).reverse.dropWhile isWS).reverse

/-- Trim surrounding whitespace from a string. -/
def trimStr (s : String) : String := ⟨trimL s.data⟩

/-- Drop every later duplicate, keeping first occurrences in order; `seen`
accumulates the entries already emitted. -/
def dedupSeen : List String → List String → List String
  | _, [] => []
  | seen, x :: xs =>
    if x ∈ seen then dedupSeen seen xs else x :: dedupSeen (x :: seen) xs

/-- Keep the first occurrence of every entry, dropping later duplicates. -/
def dedupFirst (l : List String) : List String := dedupSeen [] l

/-- Modelled from the spec: `tags` defaults to an empty sequence if absent;
each tag is trimmed of surrounding whitespace; empty or duplicate tags are
dropped silently, preserving first-occurrence order. -/
def normalizeTags (raw : Option (List String)) : List String :=
  dedupFirst (((raw.getD []).map trimStr).filter (fun t => t ≠ ""))

/-! ## Metadata Extractor -/

/-- Modelled from the spec: `extract(documentPath, rawMetadata)`.  Checks the
required fields `title`, `date`, `desc` (absent or empty fails with
`MetadataError(documentPath, field, missing)`), then passes `date` through
the Date Normalizer (a parse failure is re-signaled as
`MetadataError(documentPath, "date", invalid)`), normalizes `tags`, and
derives `path` from the document location. -/
def extract (documentPath : String) (raw : RawMetadata) : Except MetadataError Post :=
  if raw.title.getD "" = "" then .error ⟨documentPath, "title", .missing⟩
  else if raw.date.getD "" = "" then .error ⟨documentPath, "date", .missing⟩
  else if raw.desc.getD "" = "" then .error ⟨documentPath, "desc", .missing⟩
  else
    match parseDate (raw.date.getD "") with
    | none => .error ⟨documentPath, "date", .invalid⟩
    | some d =>
      .ok ⟨documentPath, derivePath documentPath, raw.title.getD "", d,
           normalizeTags raw.tags, raw.desc.getD "", raw.imageURL⟩

/-- Decidable equality for `Except`, used to evaluate pipeline results. -/
instance exceptDecEq {ε α : Type} [DecidableEq ε] [DecidableEq α] :
    DecidableEq (Except ε α) := fun a b =>
  match a, b with
  | .error e1, .error e2 =>
    if h : e1 = e2 then isTrue (by rw [h]) else
      isFalse (fun hh => h (by injection hh))
  | .error _, .ok _ => isFalse (fun hh => by injection hh)
  | .ok _, .error _ => isFalse (fun hh => by injection hh)
  | .ok a1, .ok a2 =>
    if h : a1 = a2 then isTrue (by rw [h]) else
      isFalse (fun hh => h (by injection hh))

/-! ## Post Registry: sort order -/

/-- Strict order on canonical dates: by year, then month, then day. -/
def dateLtP (a b : CDate) : Prop :=
  a.year < b.year ∨ (a.year = b.year ∧
    (a.month < b.month ∨ (a.month = b.month ∧ a.day < b.day)))

instance (a b : CDate) : Decidable (dateLtP a b) := by
  unfold dateLtP; infer_instance

/-- Modelled from the spec: the registry's strict total order on posts with
distinct paths — descending by date, ties broken by ascending lexicographic
path comparison. -/
def postLt (a b : Post) : Prop :=
  dateLtP b.date a.date ∨ (a.date = b.date ∧ a.path < b.path)

instance (a b : Post) : Decidable (postLt a b) := by
  unfold postLt; infer_instance

/-- The non-strict companion of `postLt`, used as the sort comparator. -/
def postLe (a b : Post) : Prop :=
  postLt a b ∨ (a.date = b.date ∧ a.path = b.path)

instance (a b : Post) : Decidable (postLe a b) := by
  unfold postLe; infer_instance

theorem dateLtP_trans {a b c : CDate} (h1 : dateLtP a b) (h2 : dateLtP b c) :
    dateLtP a c := by
  unfold dateLtP at *; omega

theorem dateLtP_irrefl (a : CDate) : ¬ dateLtP a a := by
  unfold dateLtP; omega

theorem dateLtP_asymm {a b : CDate} (h : dateLtP a b) : ¬ dateLtP b a := by
  unfold dateLtP at *; omega

theorem dateLtP_tricho (a b : CDate) : dateLtP a b ∨ a = b ∨ dateLtP b a := by
  obtain ⟨ay, am, ad⟩ := a
  obtain ⟨by', bm, bd⟩ := b
  simp only [dateLtP, CDate.mk.injEq]
  omega

theorem postLt_asymm {a b : Post} (h : postLt a b) : ¬ postLt b a := by
  intro h'
  rcases h with h1 | ⟨hd, hp⟩
  · rcases h' with h2 | ⟨hd', _⟩
    · exact dateLtP_asymm h1 h2
    · rw [hd'] at h1; exact dateLtP_irrefl _ h1
  · rcases h' with h2 | ⟨_, hp'⟩
    · rw [hd] at h2; exact dateLtP_irrefl _ h2
    · exact absurd hp' (not_lt_of_lt hp)

theorem postLt_trans {a b c : Post} (h1 : postLt a b) (h2 : postLt b c) :
    postLt a c := by
  rcases h1 with h1 | ⟨hd1, hp1⟩ <;> rcases h2 with h2 | ⟨hd2, hp2⟩
  · exact Or.inl (dateLtP_trans h2 h1)
  · exact Or.inl (hd2 ▸ h1)
  · exact Or.inl (hd1 ▸ h2)
  · exact Or.inr ⟨hd1.trans hd2, lt_trans hp1 hp2⟩

instance : IsTrans Post postLe := by
  constructor
  intro a b c h1 h2
  rcases h1 with h1 | ⟨hd1, hp1⟩ <;> rcases h2 with h2 | ⟨hd2, hp2⟩
  · exact Or.inl (postLt_trans h1 h2)
  · exact Or.inl (by rw [postLt, ← hd2, ← hp2]; rw [postLt] at h1; exact h1)
  · exact Or.inl (by rw [postLt, hd1, hp1]; rw [postLt] at h2; exact h2)
  · exact Or.inr ⟨hd1.trans hd2, hp1.trans hp2⟩

instance : IsTotal Post postLe := by
  constructor
  intro a b
  rcases dateLtP_tricho a.date b.date with h | h | h
  · exact Or.inr (Or.inl (Or.inl h))
  · rcases lt_trichotomy a.path b.path with hp | hp | hp
    · exact Or.inl (Or.inl (Or.inr ⟨h, hp⟩))
    · exact Or.inl (Or.inr ⟨h, hp⟩)
    · exact Or.inr (Or.inl (Or.inr ⟨h.symm, hp⟩))
  · exact Or.inl (Or.inl (Or.inl h))

/-! ## Post Registry: build and queries -/

/-- Modelled from the spec: the registry, the full sorted collection of posts
for one build, exposed through `all()`. -/
structure Registry where
  all : List Post
deriving DecidableEq, Repr

/-- Scan for the first two posts sharing a canonical path. -/
def findDup : List Post → Option (Post × Post)
  | [] => none
  | p :: ps =>
    match ps.find? (fun q => q.path == p.path) with
    | some q => some (p, q)
    | none => findDup ps

/-- Modelled from the spec: `build(posts)` fails with `DuplicatePathError`
(naming both document sources and the colliding path) as soon as two input
posts share a path, and otherwise sorts the posts descending by date with
ascending path as the tie-break. -/
def Registry.build (posts : List Post) : Except DuplicatePathError Registry :=
  match findDup posts with
  | some (a, b) => .error ⟨a.path, a.srcDoc, b.srcDoc⟩
  | none => .ok ⟨List.insertionSort postLe posts⟩

/-- Modelled from the spec: the tag index, a mapping from tag to the ordered
posts carrying it. -/
abbrev TagIndex : Type := String → List Post

/-- Modelled from the spec: build the tag index in a single pass over
`registry.all()`, appending each post to the bucket of each of its tags in
encounter order. -/
def TagIndex.build (reg : Registry) : TagIndex :=
  reg.all.foldl
    (fun acc p => fun t => if p.tags.contains t then acc t ++ [p] else acc t)
    (fun _ => [])

/-- Modelled from the spec: `postsFor(tag)`, empty (not an error) for an
unknown tag. -/
def TagIndex.postsFor (idx : TagIndex) (t : String) : List Post := idx t

/-- Modelled from the spec: `byTag(tag)`, delegated to the Tag Index. -/
def Registry.byTag (reg : Registry) (t : String) : List Post :=
  TagIndex.postsFor (TagIndex.build reg) t

theorem tagIndex_foldl (l : List Post) (acc : String → List Post) (t : String) :
    (l.foldl
      (fun acc p => fun t => if p.tags.contains t then acc t ++ [p] else acc t)
      acc) t
    = acc t ++ l.filter (fun p => p.tags.contains t) := by
  induction l generalizing acc with
  | nil => simp
  | cons p ps ih =>
    rw [List.foldl_cons, ih, List.filter_cons]
    by_cases h : p.tags.contains t = true
    · rw [if_pos h, if_pos h, List.append_assoc]; rfl
    · rw [if_neg h, if_neg h]

/-- The bucket for `t` is exactly the registry filtered to `t`, in order. -/
theorem postsFor_eq_filter (reg : Registry) (t : String) :
    TagIndex.postsFor (TagIndex.build reg) t
      = reg.all.filter (fun p => p.tags.contains t) := by
  rw [TagIndex.postsFor, TagIndex.build, tagIndex_foldl]
  simp

/-! ## Registry build lemmas -/

theorem findDup_none_iff (l : List Post) :
    findDup l = none ↔ l.Pairwise (fun a b => a.path ≠ b.path) := by
  induction l with
  | nil => simp [findDup]
  | cons p ps ih =>
    rw [findDup]
    cases hfind : ps.find? (fun q => q.path == p.path) with
    | none =>
      have hall : ∀ q ∈ ps, p.path ≠ q.path := by
        intro q hq heq
        have := List.find?_eq_none.mp hfind q hq
        simp only [beq_iff_eq] at this
        exact this heq.symm
      simp only [List.pairwise_cons, ih]
      constructor
      · intro h; exact ⟨hall, h⟩
      · intro h; exact h.2
    | some q =>
      have hq : q ∈ ps := List.mem_of_find?_eq_some hfind
      have heq : q.path = p.path := by
        have := List.find?_some hfind
        simpa [beq_iff_eq] using this
      simp only [List.pairwise_cons]
      constructor
      · intro h; cases h
      · rintro ⟨hall, -⟩
        exact absurd heq.symm (hall q hq)

theorem findDup_some (l : List Post) (a b : Post)
    (h : findDup l = some (a, b)) :
    [a, b].Sublist l ∧ a.path = b.path := by
  induction l with
  | nil => simp [findDup] at h
  | cons p ps ih =>
    rw [findDup] at h
    cases hfind : ps.find? (fun q => q.path == p.path) with
    | none =>
      rw [hfind] at h
      obtain ⟨hs, hp⟩ := ih h
      exact ⟨hs.cons p, hp⟩
    | some q =>
      rw [hfind] at h
      have hpa : p = a := congrArg Prod.fst (Option.some.inj h)
      have hqb : q = b := congrArg Prod.snd (Option.some.inj h)
      subst hpa; subst hqb
      have hq : q ∈ ps := List.mem_of_find?_eq_some hfind
      have heq : q.path = p.path := by
        have := List.find?_some hfind
        simpa [beq_iff_eq] using this
      exact ⟨List.Sublist.cons₂ p (List.singleton_sublist.mpr hq), heq.symm⟩

/-- Two lists that are permutations of each other and both pairwise-ordered
by an asymmetric relation are equal. -/
theorem eq_of_perm_of_pairwise {α : Type} {R : α → α → Prop}
    (hasym : ∀ a b, R a b → ¬ R b a) :
    ∀ (l1 l2 : List α), l1.Perm l2 → l1.Pairwise R → l2.Pairwise R → l1 = l2
  | [], l2, hp, _, _ => (hp.symm.eq_nil).symm
  | a :: t1, l2, hp, h1, h2 => by
    cases l2 with
    | nil => exact absurd hp.symm (by simp)
    | cons b t2 =>
      by_cases hab : a = b
      · subst hab
        have htail := eq_of_perm_of_pairwise hasym t1 t2 hp.cons_inv
          h1.of_cons h2.of_cons
        rw [htail]
      · have ha2 : a ∈ t2 := by
          have : a ∈ b :: t2 := hp.subset (List.mem_cons_self a t1)
          rcases List.mem_cons.mp this with h | h
          · exact absurd h hab
          · exact h
        have hb1 : b ∈ t1 := by
          have : b ∈ a :: t1 := hp.symm.subset (List.mem_cons_self b t2)
          rcases List.mem_cons.mp this with h | h
          · exact absurd h.symm hab
          · exact h
        have hRba : R b a := (List.pairwise_cons.mp h2).1 a ha2
        have hRab : R a b := (List.pairwise_cons.mp h1).1 b hb1
        exact absurd hRba (hasym a b hRab)

/-- A successful build sorts the input and certifies that all paths are
distinct. -/
theorem build_ok (posts : List Post) (reg : Registry)
    (h : Registry.build posts = .ok reg) :
    reg.all = List.insertionSort postLe posts ∧
      posts.Pairwise (fun a b => a.path ≠ b.path) := by
  rw [Registry.build] at h
  cases hd : findDup posts with
  | some pq =>
    obtain ⟨a, b⟩ := pq
    rw [hd] at h
    exact Except.noConfusion h
  | none =>
    rw [hd] at h
    have hreg := Except.ok.inj h
    exact ⟨hreg ▸ rfl, (findDup_none_iff posts).mp hd⟩

/-- The registry of a successful build is strictly sorted: descending date,
ascending path tie-break. -/
theorem build_ok_pairwiseLt (posts : List Post) (reg : Registry)
    (h : Registry.build posts = .ok reg) : reg.all.Pairwise postLt := by
  obtain ⟨hall, hnd⟩ := build_ok posts reg h
  have hsorted : List.Pairwise postLe reg.all := by
    rw [hall]; exact List.sorted_insertionSort postLe posts
  have hperm : reg.all.Perm posts := by
    rw [hall]; exact List.perm_insertionSort postLe posts
  have hsymm : ∀ {x y : Post}, x.path ≠ y.path → y.path ≠ x.path :=
    fun h heq => h heq.symm
  have hne : reg.all.Pairwise (fun a b => a.path ≠ b.path) :=
    (hperm.pairwise_iff hsymm).mpr hnd
  refine (hsorted.and hne).imp ?_
  rintro a b ⟨hle, hnep⟩
  rcases hle with hlt | ⟨-, hpe⟩
  · exact hlt
  · exact absurd hpe hnep

/-- A successful build's registry lists a permutation of the input posts. -/
theorem build_ok_perm (posts : List Post) (reg : Registry)
    (h : Registry.build posts = .ok reg) : reg.all.Perm posts := by
  rw [(build_ok posts reg h).1]
  exact List.perm_insertionSort postLe posts

/-! ## Rendering dates as text -/

/-- Character for a decimal digit. -/
def digitChar (n : Nat) : Char :=
  if n = 0 then '0' else if n = 1 then '1' else if n = 2 then '2'
  else if n = 3 then '3' else if n = 4 then '4' else if n = 5 then '5'
  else if n = 6 then '6' else if n = 7 then '7' else if n = 8 then '8'
  else '9'

/-- Decimal digits of `n`, most significant first; `fuel` bounds recursion. -/
def natCharsGo : Nat → Nat → List Char
  | 0, _ => []
  | fuel + 1, n =>
    if n < 10 then [digitChar n]
    else natCharsGo fuel (n / 10) ++ [digitChar (n % 10)]

/-- Decimal digits of `n`, most significant first. -/
def natChars (n : Nat) : List Char := natCharsGo (n + 1) n

/-- Two-digit zero-padded rendering of day numbers. -/
def pad2 (n : Nat) : List Char := if n < 10 then '0' :: natChars n else natChars n

/-- Month abbreviation used by both display and wire formats. -/
def monthAbbrL (m : Nat) : List Char :=
  if m = 1 then ['J', 'a', 'n'] else if m = 2 then ['F', 'e', 'b']
  else if m = 3 then ['M', 'a', 'r'] else if m = 4 then ['A', 'p', 'r']
  else if m = 5 then ['M', 'a', 'y'] else if m = 6 then ['J', 'u', 'n']
  else if m = 7 then ['J', 'u', 'l'] else if m = 8 then ['A', 'u', 'g']
  else if m = 9 then ['S', 'e', 'p'] else if m = 10 then ['O', 'c', 't']
  else if m = 11 then ['N', 'o', 'v'] else if m = 12 then ['D', 'e', 'c']
  else []

/-- Modelled from the spec: `display(date, referenceYear)` — `"Mon D"` when
the year equals the reference year, `"Mon D, YYYY"` otherwise. -/
def displayL (d : CDate) (refYear : Int) : List Char :=
  monthAbbrL d.month ++ ' ' :: natChars d.day ++
    (if (d.year : Int) = refYear then [] else ',' :: ' ' :: natChars d.year)

/-- String-level display of a date against a reference year. -/
def display (d : CDate) (refYear : Int) : String := ⟨displayL d refYear⟩

/-- Modelled from the spec: the fixed wire format for feed publication dates
(RFC-822 style `DD Mon YYYY 00:00:00 +0000`), distinct from the
human-display format. -/
def wireDateL (d : CDate) : List Char :=
  pad2 d.day ++ ' ' :: monthAbbrL d.month ++ ' ' :: natChars d.year ++
    [' ', '0', '0', ':', '0', '0', ':', '0', '0', ' ', '+', '0', '0', '0', '0']

/-- String-level wire-format date. -/
def wireDate (d : CDate) : String := ⟨wireDateL d⟩

theorem digitChar_not_lt (n : Nat) : digitChar n ≠ '<' := by
  unfold digitChar
  repeat' split
  all_goals decide

theorem natCharsGo_not_lt : ∀ (fuel n : Nat), ∀ c ∈ natCharsGo fuel n, c ≠ '<' := by
  intro fuel
  induction fuel with
  | zero => intro n c hc; simp [natCharsGo] at hc
  | succ fuel ih =>
    intro n c hc
    rw [natCharsGo] at hc
    split at hc
    · simp at hc; subst hc; exact digitChar_not_lt n
    · rcases List.mem_append.mp hc with h | h
      · exact ih _ c h
      · simp at h; subst h; exact digitChar_not_lt _

theorem natChars_not_lt (n : Nat) : ∀ c ∈ natChars n, c ≠ '<' :=
  natCharsGo_not_lt (n + 1) n

theorem all_ne_lt_of_mem {l : List Char}
    (hall : l.all (fun c => c != '<') = true) {c : Char} (hc : c ∈ l) :
    c ≠ '<' :=
  bne_iff_ne.mp (List.all_eq_true.mp hall c hc)

theorem monthAbbrL_all (m : Nat) :
    (monthAbbrL m).all (fun c => c != '<') = true := by
  rcases m with _ | _ | _ | _ | _ | _ | _ | _ | _ | _ | _ | _ | _ | m
  all_goals first
    | decide
    | (rw [monthAbbrL]
       repeat rw [if_neg (by omega)]
       decide)

theorem monthAbbrL_not_lt (m : Nat) : ∀ c ∈ monthAbbrL m, c ≠ '<' :=
  fun _ hc => all_ne_lt_of_mem (monthAbbrL_all m) hc

theorem pad2_not_lt (n : Nat) : ∀ c ∈ pad2 n, c ≠ '<' := by
  intro c hc
  rw [pad2] at hc
  split at hc
  · rcases List.mem_cons.mp hc with rfl | h
    · decide
    · exact natChars_not_lt n c h
  · exact natChars_not_lt n c hc

theorem wireDateL_not_lt (d : CDate) : ∀ c ∈ wireDateL d, c ≠ '<' := by
  intro c hc
  rw [wireDateL] at hc
  rcases List.mem_append.mp hc with h | h
  · rcases List.mem_append.mp h with h2 | h2
    · rcases List.mem_append.mp h2 with h3 | h3
      · exact pad2_not_lt d.day c h3
      · rcases List.mem_cons.mp h3 with rfl | h4
        · decide
        · exact monthAbbrL_not_lt d.month c h4
    · rcases List.mem_cons.mp h2 with rfl | h3
      · decide
      · exact natChars_not_lt d.year c h3
  · exact all_ne_lt_of_mem (by decide) h

/-! ## XML escaping -/

/-- XML escape of a single character. -/
def escChar (c : Char) : List Char :=
  if c = '&' then ['&', 'a', 'm', 'p', ';']
  else if c = '<' then ['&', 'l', 't', ';']
  else if c = '>' then ['&', 'g', 't', ';']
  else if c = '"' then ['&', 'q', 'u', 'o', 't', ';']
  else if c = '\'' then ['&', '#', '3', '9', ';']
  else [c]

/-- XML escape of a character list. -/
def esc : List Char → List Char
  | [] => []
  | c :: cs => escChar c ++ esc cs

/-- Inverse of `esc`: replace the five XML entities by their characters. -/
def unesc : List Char → List Char
  | [] => []
  | c :: rest =>
    if c = '&' then
      if ['a', 'm', 'p', ';'].isPrefixOf rest then '&' :: unesc (rest.drop 4)
      else if ['l', 't', ';'].isPrefixOf rest then '<' :: unesc (rest.drop 3)
      else if ['g', 't', ';'].isPrefixOf rest then '>' :: unesc (rest.drop 3)
      else if ['q', 'u', 'o', 't', ';'].isPrefixOf rest then
        '"' :: unesc (rest.drop 5)
      else if ['#', '3', '9', ';'].isPrefixOf rest then
        '\'' :: unesc (rest.drop 4)
      else c :: unesc rest
    else c :: unesc rest
termination_by cs => cs.length
decreasing_by
  all_goals simp [List.length_drop]
  all_goals omega

theorem isPrefixOf_append (l r : List Char) : l.isPrefixOf (l ++ r) = true := by
  induction l with
  | nil => simp [List.isPrefixOf]
  | cons a as ih => simp [List.isPrefixOf, ih]

theorem isPrefixOf_cons_ne {a b : Char} (h : a ≠ b) (as bs : List Char) :
    (a :: as).isPrefixOf (b :: bs) = false := by
  have hb : (a == b) = false := beq_eq_false_iff_ne.mpr h
  simp [List.isPrefixOf, hb]

theorem esc_not_lt : ∀ (s : List Char), ∀ c ∈ esc s, c ≠ '<' := by
  intro s
  induction s with
  | nil => intro c hc; simp [esc] at hc
  | cons c' cs ih =>
    intro c hc
    rw [esc] at hc
    rcases List.mem_append.mp hc with h | h
    · rw [escChar] at h
      split_ifs at h with h1 h2 h3 h4 h5
      · simp at h; rcases h with rfl | rfl | rfl | rfl | rfl <;> decide
      · simp at h; rcases h with rfl | rfl | rfl | rfl <;> decide
      · simp at h; rcases h with rfl | rfl | rfl | rfl <;> decide
      · simp at h; rcases h with rfl | rfl | rfl | rfl | rfl | rfl <;> decide
      · simp at h; rcases h with rfl | rfl | rfl | rfl | rfl <;> decide
      · simp at h; subst h; exact h2
    · exact ih c h

theorem not_isPrefixOf_ne {a b : Char} (h : a ≠ b) (as bs rest : List Char) :
    ¬ ((a :: as).isPrefixOf ((b :: bs) ++ rest) = true) := by
  have hsh : (b :: bs) ++ rest = b :: (bs ++ rest) := rfl
  rw [hsh, isPrefixOf_cons_ne h]
  exact Bool.false_ne_true

theorem unesc_escChar (c : Char) (rest : List Char) :
    unesc (escChar c ++ rest) = c :: unesc rest := by
  by_cases h1 : c = '&'
  · subst h1
    have hsh : escChar '&' ++ rest = '&' :: (['a', 'm', 'p', ';'] ++ rest) := rfl
    rw [hsh, unesc, if_pos rfl, if_pos (isPrefixOf_append _ _)]
    have hdrop : (['a', 'm', 'p', ';'] ++ rest).drop 4 = rest :=
      List.drop_left ['a', 'm', 'p', ';'] rest
    rw [hdrop]
  · by_cases h2 : c = '<'
    · subst h2
      have hsh : escChar '<' ++ rest = '&' :: (['l', 't', ';'] ++ rest) := rfl
      rw [hsh, unesc, if_pos rfl,
        if_neg (not_isPrefixOf_ne (by decide) _ _ _),
        if_pos (isPrefixOf_append _ _)]
      have hdrop : (['l', 't', ';'] ++ rest).drop 3 = rest :=
        List.drop_left ['l', 't', ';'] rest
      rw [hdrop]
    · by_cases h3 : c = '>'
      · subst h3
        have hsh : escChar '>' ++ rest = '&' :: (['g', 't', ';'] ++ rest) := rfl
        rw [hsh, unesc, if_pos rfl,
          if_neg (not_isPrefixOf_ne (by decide) _ _ _),
          if_neg (not_isPrefixOf_ne (by decide) _ _ _),
          if_pos (isPrefixOf_append _ _)]
        have hdrop : (['g', 't', ';'] ++ rest).drop 3 = rest :=
          List.drop_left ['g', 't', ';'] rest
        rw [hdrop]
      · by_cases h4 : c = '"'
        · subst h4
          have hsh : escChar '"' ++ rest = '&' :: (['q', 'u', 'o', 't', ';'] ++ rest) := rfl
          rw [hsh, unesc, if_pos rfl,
            if_neg (not_isPrefixOf_ne (by decide) _ _ _),
            if_neg (not_isPrefixOf_ne (by decide) _ _ _),
            if_neg (not_isPrefixOf_ne (by decide) _ _ _),
            if_pos (isPrefixOf_append _ _)]
          have hdrop : (['q', 'u', 'o', 't', ';'] ++ rest).drop 5 = rest :=
            List.drop_left ['q', 'u', 'o', 't', ';'] rest
          rw [hdrop]
        · by_cases h5 : c = '\''
          · subst h5
            have hsh : escChar '\'' ++ rest = '&' :: (['#', '3', '9', ';'] ++ rest) := rfl
            rw [hsh, unesc, if_pos rfl,
              if_neg (not_isPrefixOf_ne (by decide) _ _ _),
              if_neg (not_isPrefixOf_ne (by decide) _ _ _),
              if_neg (not_isPrefixOf_ne (by decide) _ _ _),
              if_neg (not_isPrefixOf_ne (by decide) _ _ _),
              if_pos (isPrefixOf_append _ _)]
            have hdrop : (['#', '3', '9', ';'] ++ rest).drop 4 = rest :=
              List.drop_left ['#', '3', '9', ';'] rest
            rw [hdrop]
          · have hsh : escChar c ++ rest = c :: rest := by
              rw [escChar, if_neg h1, if_neg h2, if_neg h3, if_neg h4, if_neg h5]
              rfl
            rw [hsh, unesc, if_neg h1]

theorem unesc_esc_append : ∀ (s rest : List Char),
    unesc (esc s ++ rest) = s ++ unesc rest := by
  intro s
  induction s with
  | nil => intro rest; rfl
  | cons c cs ih =>
    intro rest
    rw [esc, List.append_assoc, unesc_escChar, ih]
    rfl

theorem unesc_esc (s : List Char) : unesc (esc s) = s := by
  have h := unesc_esc_append s []
  rw [List.append_nil] at h
  rw [h, unesc, List.append_nil]

/-! ## Take/drop up to the next tag opener -/

/-- Keep-scanning predicate: characters other than `'<'`. -/
def pNLt : Char → Bool := fun c => c != '<'

theorem takeWhile_not_lt (s : List Char) (h : ∀ c ∈ s, c ≠ '<')
    (rest : List Char) : (s ++ '<' :: rest).takeWhile pNLt = s := by
  induction s with
  | nil => simp [pNLt]
  | cons a as ih =>
    have ha : pNLt a = true := bne_iff_ne.mpr (h a (List.mem_cons_self a as))
    rw [List.cons_append, List.takeWhile_cons, if_pos ha,
      ih (fun c hc => h c (List.mem_cons_of_mem a hc))]

theorem dropWhile_not_lt (s : List Char) (h : ∀ c ∈ s, c ≠ '<')
    (rest : List Char) : (s ++ '<' :: rest).dropWhile pNLt = '<' :: rest := by
  induction s with
  | nil => simp [pNLt]
  | cons a as ih =>
    have ha : pNLt a = true := bne_iff_ne.mpr (h a (List.mem_cons_self a as))
    rw [List.cons_append, List.dropWhile_cons, if_pos ha,
      ih (fun c hc => h c (List.mem_cons_of_mem a hc))]

/-! ## Feed Generator -/

/-- Modelled from the spec: channel metadata (title, site link, description)
carried by the generated feed. -/
structure ChannelMeta where
  title : String
  link : String
  desc : String
deriving DecidableEq, Repr

/-- One parsed feed item: title, link, description, publication date and
globally unique identifier. -/
structure FeedItem where
  title : String
  link : String
  desc : String
  pubDate : String
  guid : String
deriving DecidableEq, Repr

def litItemOpen : List Char := '<' :: "item><title>".data

def litTitleLinkT : List Char := "/title><link>".data

def litTitleLink : List Char := '<' :: litTitleLinkT

def litLinkDescT : List Char := "/link><description>".data

def litLinkDesc : List Char := '<' :: litLinkDescT

def litDescPubT : List Char := "/description><pubDate>".data

def litDescPub : List Char := '<' :: litDescPubT

def litPubGuidT : List Char := "/pubDate><guid>".data

def litPubGuid : List Char := '<' :: litPubGuidT

def litGuidEndT : List Char := "/guid></item>".data

def litGuidEnd : List Char := '<' :: litGuidEndT

def litRssOpen : List Char := "<rss version=\"2.0\"><channel><title>".data

def litDescEndT : List Char := "/description>".data

def litDescEnd : List Char := '<' :: litDescEndT

def litFeedEndT : List Char := "/channel></rss>".data

def litFeedEnd : List Char := '<' :: litFeedEndT

/-- Concatenate a list of character lists. -/
def catLists : List (List Char) → List Char
  | [] => []
  | l :: ls => l ++ catLists ls

/-- Modelled from the spec: render one feed item —
`<item><title>…</title><link>…</link><description>…</description>`
`<pubDate>…</pubDate><guid>…</guid></item>`, with every text field
XML-escaped, the link being the site base followed by the post path, the
publication date in the wire format, and the guid equal to the link. -/
def renderItemL (site : List Char) (p : Post) : List Char :=
  litItemOpen ++ esc p.title.data ++ litTitleLink ++
    esc (site ++ p.path.data) ++ litLinkDesc ++ esc p.desc.data ++
    litDescPub ++ wireDateL p.date ++ litPubGuid ++
    esc (site ++ p.path.data) ++ litGuidEnd

/-- Modelled from the spec: the generated feed document — one root element
with the channel title, site link and description, followed by one item per
post in `registry.all()` order, then the closing tags. -/
def generateL (reg : Registry) (m : ChannelMeta) : List Char :=
  litRssOpen ++ esc m.title.data ++ litTitleLink ++ esc m.link.data ++
    litLinkDesc ++ esc m.desc.data ++ litDescEnd ++
    catLists (reg.all.map (renderItemL m.link.data)) ++ litFeedEnd

/-- Modelled from the spec: `generate(registry, channelMeta)` as a string. -/
def generate (reg : Registry) (m : ChannelMeta) : String := ⟨generateL reg m⟩

/-! ## Feed parsing (for the round-trip property) -/

/-- Consume an expected literal prefix. -/
def expect (lit cs : List Char) : Option (List Char) :=
  if lit.isPrefixOf cs then some (cs.drop lit.length) else none

/-- Parse one text field: take characters up to the next `'<'`, then consume
the expected closing literal. -/
def pfield (closer cs : List Char) : Option (List Char × List Char) :=
  match expect closer (cs.dropWhile pNLt) with
  | none => none
  | some rest => some (cs.takeWhile pNLt, rest)

/-- Parse one `item` element, returning the item and the remaining input. -/
def parseItem (cs : List Char) : Option (FeedItem × List Char) :=
  (expect litItemOpen cs).bind fun s1 =>
  (pfield litTitleLink s1).bind fun ts =>
  (pfield litLinkDesc ts.2).bind fun ls =>
  (pfield litDescPub ls.2).bind fun ds =>
  (pfield litPubGuid ds.2).bind fun ps =>
  (pfield litGuidEnd ps.2).map fun gs =>
  (⟨⟨unesc ts.1⟩, ⟨unesc ls.1⟩, ⟨unesc ds.1⟩, ⟨ps.1⟩, ⟨unesc gs.1⟩⟩, gs.2)

/-- Parse a sequence of `item` elements; `fuel` bounds the number of items. -/
def parseItems : Nat → List Char → List FeedItem
  | 0, _ => []
  | fuel + 1, cs =>
    match parseItem cs with
    | none => []
    | some (it, rest) => it :: parseItems fuel rest

/-- Skip the channel header (title, link, description) of a feed document. -/
def skipHeader (cs : List Char) : List Char :=
  match expect litRssOpen cs with
  | none => []
  | some s1 =>
    match expect litTitleLink (s1.dropWhile pNLt) with
    | none => []
    | some s2 =>
      match expect litLinkDesc (s2.dropWhile pNLt) with
      | none => []
      | some s3 =>
        match expect litDescEnd (s3.dropWhile pNLt) with
        | none => []
        | some s4 => s4

/-- Parse the items of a feed document. -/
def parseFeed (s : String) : List FeedItem :=
  parseItems s.data.length (skipHeader s.data)

/-- The item a faithful parse of `renderItemL site p` recovers. -/
def itemOfL (site : List Char) (p : Post) : FeedItem :=
  ⟨p.title, ⟨site ++ p.path.data⟩, p.desc, ⟨wireDateL p.date⟩,
    ⟨site ++ p.path.data⟩⟩

/-- The expected feed item of a post: title, site base + path as link, the
description, the wire-format date, and the guid equal to the link. -/
def itemOf (m : ChannelMeta) (p : Post) : FeedItem :=
  ⟨p.title, m.link ++ p.path, p.desc, wireDate p.date, m.link ++ p.path⟩

theorem itemOfL_eq (m : ChannelMeta) (p : Post) :
    itemOfL m.link.data p = itemOf m p := rfl

theorem expect_append (lit rest : List Char) :
    expect lit (lit ++ rest) = some rest := by
  rw [expect, if_pos (isPrefixOf_append lit rest), List.drop_left]

theorem pfield_spec (tl s : List Char) (h : ∀ c ∈ s, c ≠ '<')
    (rest : List Char) :
    pfield ('<' :: tl) (s ++ '<' :: (tl ++ rest)) = some (s, rest) := by
  rw [pfield, dropWhile_not_lt s h, takeWhile_not_lt s h]
  have hsh : ('<' : Char) :: (tl ++ rest) = ('<' :: tl) ++ rest := rfl
  rw [hsh, expect_append]

theorem pfield_titleLink (s : List Char) (h : ∀ c ∈ s, c ≠ '<')
    (rest : List Char) :
    pfield litTitleLink (s ++ '<' :: (litTitleLinkT ++ rest)) = some (s, rest) :=
  pfield_spec litTitleLinkT s h rest

theorem pfield_linkDesc (s : List Char) (h : ∀ c ∈ s, c ≠ '<')
    (rest : List Char) :
    pfield litLinkDesc (s ++ '<' :: (litLinkDescT ++ rest)) = some (s, rest) :=
  pfield_spec litLinkDescT s h rest

theorem pfield_descPub (s : List Char) (h : ∀ c ∈ s, c ≠ '<')
    (rest : List Char) :
    pfield litDescPub (s ++ '<' :: (litDescPubT ++ rest)) = some (s, rest) :=
  pfield_spec litDescPubT s h rest

theorem pfield_pubGuid (s : List Char) (h : ∀ c ∈ s, c ≠ '<')
    (rest : List Char) :
    pfield litPubGuid (s ++ '<' :: (litPubGuidT ++ rest)) = some (s, rest) :=
  pfield_spec litPubGuidT s h rest

theorem pfield_guidEnd (s : List Char) (h : ∀ c ∈ s, c ≠ '<')
    (rest : List Char) :
    pfield litGuidEnd (s ++ '<' :: (litGuidEndT ++ rest)) = some (s, rest) :=
  pfield_spec litGuidEndT s h rest

theorem renderItemL_shape (site : List Char) (p : Post) (rest : List Char) :
    renderItemL site p ++ rest =
      litItemOpen ++
        (esc p.title.data ++ '<' :: (litTitleLinkT ++
          (esc (site ++ p.path.data) ++ '<' :: (litLinkDescT ++
            (esc p.desc.data ++ '<' :: (litDescPubT ++
              (wireDateL p.date ++ '<' :: (litPubGuidT ++
                (esc (site ++ p.path.data) ++
                  '<' :: (litGuidEndT ++ rest)))))))))) := by
  simp only [renderItemL, litTitleLink, litLinkDesc, litDescPub, litPubGuid,
    litGuidEnd, List.cons_append, List.append_assoc]

theorem parseItem_render (site : List Char) (p : Post) (rest : List Char) :
    parseItem (renderItemL site p ++ rest) = some (itemOfL site p, rest) := by
  rw [parseItem, renderItemL_shape, expect_append]
  simp only [Option.some_bind]
  rw [pfield_titleLink _ (esc_not_lt _)]
  simp only [Option.some_bind]
  rw [pfield_linkDesc _ (esc_not_lt _)]
  simp only [Option.some_bind]
  rw [pfield_descPub _ (esc_not_lt _)]
  simp only [Option.some_bind]
  rw [pfield_pubGuid _ (fun c hc => wireDateL_not_lt p.date c hc)]
  simp only [Option.some_bind]
  rw [pfield_guidEnd _ (esc_not_lt _)]
  simp only [Option.map_some']
  simp only [unesc_esc]
  rfl

theorem parseItem_feedEnd : parseItem litFeedEnd = none := rfl

theorem parseItems_render (site : List Char) :
    ∀ (ps : List Post) (fuel : Nat), ps.length ≤ fuel →
      parseItems fuel (catLists (ps.map (renderItemL site)) ++ litFeedEnd)
        = ps.map (itemOfL site) := by
  intro ps
  induction ps with
  | nil =>
    intro fuel _
    cases fuel with
    | zero => rfl
    | succ fuel => simp [parseItems, catLists, parseItem_feedEnd]
  | cons p ps ih =>
    intro fuel hf
    cases fuel with
    | zero => simp [List.length_cons] at hf
    | succ fuel =>
      have hshape :
          catLists ((p :: ps).map (renderItemL site)) ++ litFeedEnd
            = renderItemL site p ++
                (catLists (ps.map (renderItemL site)) ++ litFeedEnd) := by
        rw [List.map_cons, catLists, List.append_assoc]
      rw [hshape, parseItems, parseItem_render]
      have hf2 : ps.length ≤ fuel := by
        simp [List.length_cons] at hf; omega
      dsimp only
      rw [List.map_cons, ih fuel hf2]

theorem renderItemL_len_pos (site : List Char) (p : Post) :
    0 < (renderItemL site p).length := by
  simp [renderItemL, litItemOpen, List.length_append]

theorem le_length_catLists_render (site : List Char) :
    ∀ ps : List Post, ps.length ≤ (catLists (ps.map (renderItemL site))).length := by
  intro ps
  induction ps with
  | nil => simp [catLists]
  | cons p ps ih =>
    have hpos := renderItemL_len_pos site p
    rw [List.map_cons, catLists, List.length_append, List.length_cons]
    omega

theorem items_le_generateL_len (reg : Registry) (m : ChannelMeta) :
    reg.all.length ≤ (generateL reg m).length := by
  have h := le_length_catLists_render m.link.data reg.all
  simp only [generateL, List.length_append]
  omega

theorem expect_afterText (tl s : List Char) (h : ∀ c ∈ s, c ≠ '<')
    (rest : List Char) :
    expect ('<' :: tl) ((s ++ '<' :: (tl ++ rest)).dropWhile pNLt) = some rest := by
  rw [dropWhile_not_lt s h]
  have hsh : ('<' : Char) :: (tl ++ rest) = ('<' :: tl) ++ rest := rfl
  rw [hsh, expect_append]

theorem expectTitleLink (s : List Char) (h : ∀ c ∈ s, c ≠ '<')
    (rest : List Char) :
    expect litTitleLink ((s ++ '<' :: (litTitleLinkT ++ rest)).dropWhile pNLt)
      = some rest :=
  expect_afterText litTitleLinkT s h rest

theorem expectLinkDesc (s : List Char) (h : ∀ c ∈ s, c ≠ '<')
    (rest : List Char) :
    expect litLinkDesc ((s ++ '<' :: (litLinkDescT ++ rest)).dropWhile pNLt)
      = some rest :=
  expect_afterText litLinkDescT s h rest

theorem expectDescEnd (s : List Char) (h : ∀ c ∈ s, c ≠ '<')
    (rest : List Char) :
    expect litDescEnd ((s ++ '<' :: (litDescEndT ++ rest)).dropWhile pNLt)
      = some rest :=
  expect_afterText litDescEndT s h rest

theorem generateL_shape (reg : Registry) (m : ChannelMeta) :
    generateL reg m =
      litRssOpen ++
        (esc m.title.data ++ '<' :: (litTitleLinkT ++
          (esc m.link.data ++ '<' :: (litLinkDescT ++
            (esc m.desc.data ++ '<' :: (litDescEndT ++
              (catLists (reg.all.map (renderItemL m.link.data)) ++
                litFeedEnd))))))) := by
  simp only [generateL, litTitleLink, litLinkDesc, litDescEnd,
    List.cons_append, List.append_assoc]

theorem skipHeader_generateL (reg : Registry) (m : ChannelMeta) :
    skipHeader (generateL reg m)
      = catLists (reg.all.map (renderItemL m.link.data)) ++ litFeedEnd := by
  rw [generateL_shape, skipHeader, expect_append]
  dsimp only
  rw [expectTitleLink _ (esc_not_lt _)]
  dsimp only
  rw [expectLinkDesc _ (esc_not_lt _)]
  dsimp only
  rw [expectDescEnd _ (esc_not_lt _)]

/-- Round trip: parsing the generated feed recovers one item per post, in
registry order, with the expected fields. -/
theorem parseFeed_generate (reg : Registry) (m : ChannelMeta) :
    parseFeed (generate reg m) = reg.all.map (itemOf m) := by
  have hdata : (generate reg m).data = generateL reg m := rfl
  rw [parseFeed, hdata, skipHeader_generateL]
  rw [parseItems_render m.link.data reg.all _ (items_le_generateL_len reg m)]
  have hfun : itemOfL m.link.data = itemOf m := funext (itemOfL_eq m)
  rw [hfun]

/-! ## Canonical path shape -/

/-- A well-formed canonical path: exactly one leading `'/'` (the second
character, if any, is not `'/'`), and no trailing `'/'` unless the path is
the root `"/"`. -/
def goodPath (p : List Char) : Prop :=
  p.head? = some '/' ∧ p.tail.head? ≠ some '/' ∧
    (p = ['/'] ∨ p.getLast? ≠ some '/')

theorem mem_of_getLast?_eq {l : List Char} {x : Char}
    (h : l.getLast? = some x) : x ∈ l := by
  obtain ⟨hne, hx⟩ := List.mem_getLast?_eq_getLast (Option.mem_def.mpr h)
  rw [hx]
  exact List.getLast_mem hne

theorem splitSegs_no_slash : ∀ (cs : List Char), ∀ s ∈ splitSegs cs, '/' ∉ s := by
  intro cs
  induction cs with
  | nil =>
    intro s hs hmem
    rw [splitSegs] at hs
    rw [List.mem_singleton.mp hs] at hmem
    exact List.not_mem_nil '/' hmem
  | cons c cs ih =>
    intro s hs hmem
    rw [splitSegs] at hs
    cases h : splitSegs cs with
    | nil =>
      rw [h] at hs
      dsimp only at hs
      by_cases hc : c = '/'
      · rw [if_pos hc] at hs
        rcases List.mem_cons.mp hs with rfl | hs2
        · exact List.not_mem_nil '/' hmem
        · rw [List.mem_singleton.mp hs2] at hmem
          exact List.not_mem_nil '/' hmem
      · rw [if_neg hc] at hs
        rw [List.mem_singleton.mp hs] at hmem
        exact hc (List.mem_singleton.mp hmem).symm
    | cons s0 rest =>
      rw [h] at hs
      dsimp only at hs
      by_cases hc : c = '/'
      · rw [if_pos hc] at hs
        rcases List.mem_cons.mp hs with rfl | hs2
        · exact List.not_mem_nil '/' hmem
        · exact ih s (h ▸ hs2) hmem
      · rw [if_neg hc] at hs
        rcases List.mem_cons.mp hs with rfl | hs2
        · rcases List.mem_cons.mp hmem with heq | hmem2
          · exact hc heq.symm
          · exact ih s0 (h ▸ List.mem_cons_self s0 rest) hmem2
        · exact ih s (h ▸ List.mem_cons_of_mem s0 hs2) hmem

theorem stripExt_subset (s : List Char) : ∀ c ∈ stripExt s, c ∈ s := by
  intro c hc
  rw [stripExt] at hc
  split at hc
  · rw [List.mem_reverse] at hc
    have h1 : c ∈ s.reverse.dropWhile (fun c => c ≠ '.') :=
      List.mem_of_mem_drop hc
    have h2 : c ∈ s.reverse := (List.dropWhile_sublist _).subset h1
    exact List.mem_reverse.mp h2
  · exact hc

theorem joinSegs_ne_nil (s : List Char) (rest : List (List Char))
    (hs : s ≠ []) : joinSegs (s :: rest) ≠ [] := by
  cases rest with
  | nil => simpa [joinSegs] using hs
  | cons s2 r => simp [joinSegs]

theorem joinSegs_head (s : List Char) (rest : List (List Char)) (hs : s ≠ []) :
    (joinSegs (s :: rest)).head? = s.head? := by
  obtain ⟨c, s', rfl⟩ := List.exists_cons_of_ne_nil hs
  cases rest with
  | nil => rfl
  | cons s2 r => rfl

theorem joinSegs_getLast_ne :
    ∀ (segs : List (List Char)), (∀ s ∈ segs, s ≠ []) →
      (∀ s ∈ segs, '/' ∉ s) → ∀ x, (joinSegs segs).getLast? = some x → x ≠ '/'
  | [], _, _ => by
    intro x hx
    rw [joinSegs] at hx
    exact absurd hx (by simp)
  | [s], hall, hns => by
    intro x hx heq
    have hxs : x ∈ s := mem_of_getLast?_eq (by
      rw [joinSegs] at hx
      exact hx)
    exact hns s (List.mem_cons_self s []) (heq ▸ hxs)
  | s :: s2 :: r, hall, hns => by
    intro x hx
    have hs2 : s2 ≠ [] := hall s2 (List.mem_cons_of_mem s (List.mem_cons_self s2 r))
    have hjn : joinSegs (s2 :: r) ≠ [] := joinSegs_ne_nil s2 r hs2
    rw [show joinSegs (s :: s2 :: r) = s ++ '/' :: joinSegs (s2 :: r) from rfl,
      List.getLast?_append] at hx
    have hsome : (joinSegs (s2 :: r)).getLast? = some x := by
      cases hj : (joinSegs (s2 :: r)).getLast? with
      | none => exact absurd (List.getLast?_eq_none_iff.mp hj) hjn
      | some y =>
        obtain ⟨a, l, hal⟩ := List.exists_cons_of_ne_nil hjn
        rw [hal, List.getLast?_cons_cons, ← hal, hj] at hx
        exact hx
    exact joinSegs_getLast_ne (s2 :: r)
      (fun u hu => hall u (List.mem_cons_of_mem s hu))
      (fun u hu => hns u (List.mem_cons_of_mem s hu)) x hsome

theorem goodSegs_path (segs : List (List Char))
    (hne : ∀ s ∈ segs, s ≠ []) (hns : ∀ s ∈ segs, '/' ∉ s) :
    goodPath ('/' :: joinSegs segs) := by
  cases segs with
  | nil => exact ⟨rfl, by simp [joinSegs], Or.inl rfl⟩
  | cons s rest =>
    have hs : s ≠ [] := hne s (List.mem_cons_self s rest)
    refine ⟨rfl, ?_, Or.inr ?_⟩
    · show (joinSegs (s :: rest)).head? ≠ some '/'
      rw [joinSegs_head s rest hs]
      obtain ⟨c, s', rfl⟩ := List.exists_cons_of_ne_nil hs
      intro habs
      have hc : c = '/' := by simpa using habs
      exact hns (c :: s') (List.mem_cons_self _ rest)
        (hc ▸ List.mem_cons_self c s')
    · have hjn : joinSegs (s :: rest) ≠ [] := joinSegs_ne_nil s rest hs
      have hlast : (('/' : Char) :: joinSegs (s :: rest)).getLast?
          = (joinSegs (s :: rest)).getLast? := by
        obtain ⟨a, l, hal⟩ := List.exists_cons_of_ne_nil hjn
        rw [hal]
        exact List.getLast?_cons_cons
      rw [hlast]
      intro habs
      exact joinSegs_getLast_ne (s :: rest) hne hns '/' habs rfl

theorem collapseRev_no_slash (rsegs : List (List Char))
    (h : ∀ s ∈ rsegs, '/' ∉ s) : ∀ s ∈ collapseRev rsegs, '/' ∉ s := by
  cases rsegs with
  | nil => intro s hs; rw [collapseRev] at hs; exact absurd hs (List.not_mem_nil s)
  | cons lastSeg revInit =>
    intro s hs
    rw [collapseRev] at hs
    by_cases hidx : stripExt lastSeg = ['i', 'n', 'd', 'e', 'x'] ∨
        stripExt lastSeg = []
    · rw [if_pos hidx] at hs
      exact h s (List.mem_cons_of_mem lastSeg (List.mem_reverse.mp hs))
    · rw [if_neg hidx] at hs
      rcases List.mem_append.mp hs with h1 | h1
      · exact h s (List.mem_cons_of_mem lastSeg (List.mem_reverse.mp h1))
      · rw [List.mem_singleton.mp h1]
        intro habs
        exact h lastSeg (List.mem_cons_self _ _) (stripExt_subset lastSeg '/' habs)

theorem derivePathL_good (doc : List Char) : goodPath (derivePathL doc) := by
  rw [derivePathL]
  apply goodSegs_path
  · intro s hs
    have := List.of_mem_filter hs
    simpa using this
  · intro s hs
    have hmem := List.mem_of_mem_filter hs
    refine collapseRev_no_slash _ ?_ s hmem
    intro u hu
    exact splitSegs_no_slash doc u
      (List.mem_of_mem_filter (List.mem_reverse.mp hu))

/-! ## Tag dedup properties -/

theorem dedupSeen_subset : ∀ (seen l : List String) (x : String),
    x ∈ dedupSeen seen l → x ∈ l := by
  intro seen l
  induction l generalizing seen with
  | nil => intro x hx; simp [dedupSeen] at hx
  | cons y ys ih =>
    intro x hx
    rw [dedupSeen] at hx
    split at hx
    · exact List.mem_cons_of_mem y (ih seen x hx)
    · rcases List.mem_cons.mp hx with rfl | hx2
      · exact List.mem_cons_self x ys
      · exact List.mem_cons_of_mem y (ih (y :: seen) x hx2)

theorem dedupSeen_not_seen : ∀ (seen l : List String) (x : String),
    x ∈ dedupSeen seen l → x ∉ seen := by
  intro seen l
  induction l generalizing seen with
  | nil => intro x hx; simp [dedupSeen] at hx
  | cons y ys ih =>
    intro x hx
    rw [dedupSeen] at hx
    split at hx
    · exact ih seen x hx
    · next hy =>
      rcases List.mem_cons.mp hx with rfl | hx2
      · exact hy
      · intro hseen
        exact ih (y :: seen) x hx2 (List.mem_cons_of_mem y hseen)

theorem dedupSeen_nodup : ∀ (seen l : List String), (dedupSeen seen l).Nodup := by
  intro seen l
  induction l generalizing seen with
  | nil => simp [dedupSeen]
  | cons y ys ih =>
    rw [dedupSeen]
    split
    · exact ih seen
    · refine List.nodup_cons.mpr ⟨?_, ih (y :: seen)⟩
      intro hy
      exact dedupSeen_not_seen (y :: seen) ys y hy (List.mem_cons_self y seen)

theorem dedupFirst_nodup (l : List String) : (dedupFirst l).Nodup :=
  dedupSeen_nodup [] l

theorem dedupFirst_subset (l : List String) : ∀ x ∈ dedupFirst l, x ∈ l :=
  fun x hx => dedupSeen_subset [] l x hx

/-! ## Extract evaluation lemmas -/

theorem extract_title_missing (dp : String) {raw : RawMetadata}
    (h1 : raw.title.getD "" = "") :
    extract dp raw = .error ⟨dp, "title", .missing⟩ := by
  rw [extract, if_pos h1]

theorem extract_date_missing (dp : String) {raw : RawMetadata}
    (h1 : raw.title.getD "" ≠ "") (h2 : raw.date.getD "" = "") :
    extract dp raw = .error ⟨dp, "date", .missing⟩ := by
  rw [extract, if_neg h1, if_pos h2]

theorem extract_desc_missing (dp : String) {raw : RawMetadata}
    (h1 : raw.title.getD "" ≠ "") (h2 : raw.date.getD "" ≠ "")
    (h3 : raw.desc.getD "" = "") :
    extract dp raw = .error ⟨dp, "desc", .missing⟩ := by
  rw [extract, if_neg h1, if_neg h2, if_pos h3]

theorem extract_invalid (dp : String) {raw : RawMetadata}
    (h1 : raw.title.getD "" ≠ "") (h2 : raw.date.getD "" ≠ "")
    (h3 : raw.desc.getD "" ≠ "") (h4 : parseDate (raw.date.getD "") = none) :
    extract dp raw = .error ⟨dp, "date", .invalid⟩ := by
  rw [extract, if_neg h1, if_neg h2, if_neg h3, h4]

theorem extract_ok (dp : String) {raw : RawMetadata} {d : CDate}
    (h1 : raw.title.getD "" ≠ "") (h2 : raw.date.getD "" ≠ "")
    (h3 : raw.desc.getD "" ≠ "") (h4 : parseDate (raw.date.getD "") = some d) :
    extract dp raw = .ok ⟨dp, derivePath dp, raw.title.getD "", d,
      normalizeTags raw.tags, raw.desc.getD "", raw.imageURL⟩ := by
  rw [extract, if_neg h1, if_neg h2, if_neg h3, h4]

/-! ## Whole-pipeline run and the page driver -/

/-- A failure of the extraction+aggregation pipeline. -/
inductive BuildFailure where
  | meta (e : MetadataError)
  | dup (e : DuplicatePathError)
deriving DecidableEq, Repr

/-- Extract every document, failing on the first metadata error. -/
def extractAll : List (String × RawMetadata) → Except MetadataError (List Post)
  | [] => .ok []
  | (dp, raw) :: rest =>
    match extract dp raw with
    | .error e => .error e
    | .ok p =>
      match extractAll rest with
      | .error e => .error e
      | .ok ps => .ok (p :: ps)

/-- Modelled from the spec: the full build pipeline — extraction of every
document followed by registry aggregation. -/
def pipeline (docs : List (String × RawMetadata)) : Except BuildFailure Registry :=
  match extractAll docs with
  | .error e => .error (.meta e)
  | .ok posts =>
    match Registry.build posts with
    | .error e => .error (.dup e)
    | .ok reg => .ok reg

/-- Result of the page's `getStaticProps`: the file write it performs and the
props it returns. -/
structure StaticPropsResult where
  writtenPath : String
  writtenContent : String
  props : List Post
deriving DecidableEq, Repr

/-- Shallow embedding of `getStaticProps` in `src/src/pages/index.tsx`: it
obtains the post data once, generates the RSS feed from that same value,
writes the feed to `./public/index.xml`, and returns the very same value as
the page's `posts` prop. -/
def getStaticProps (postData : Registry) (m : ChannelMeta) : StaticPropsResult :=
  let rss := generate postData m
  ⟨"./public/index.xml", rss, postData.all⟩

/-! ## Concrete values used by witnesses -/

def pw1 : Post := ⟨"posts/a.mdx", "/a", "A", ⟨2020, 1, 1⟩, ["x"], "d1", none⟩

def pw2 : Post := ⟨"posts/b.mdx", "/b", "B", ⟨2021, 1, 1⟩, ["x", "y"], "d2", none⟩

def pdup : Post := ⟨"posts/c.mdx", "/a", "C", ⟨2019, 1, 1⟩, [], "d3", none⟩

def rawW : RawMetadata :=
  ⟨some "A", some "2020-01-01", some ["x"], some "d1", none⟩

def postW : Post :=
  ⟨"posts/a.mdx", "/posts/a", "A", ⟨2020, 1, 1⟩, ["x"], "d1", none⟩

def metaW : ChannelMeta := ⟨"Blog", "https://example.com", "A blog"⟩

/-! ## Claims -/

/-- Claim C1: for every sequence of valid posts accepted by `Registry.build`,
`registry.all()` is totally ordered — strictly descending by date, ties
broken by ascending lexicographic path — and this order is the same
regardless of the order in which the input posts were supplied. -/
theorem claim_C1 (posts : List Post) (reg : Registry)
    (h : Registry.build posts = .ok reg) :
    reg.all.Pairwise postLt ∧
      ∀ (posts2 : List Post) (reg2 : Registry), posts.Perm posts2 →
        Registry.build posts2 = .ok reg2 → reg2.all = reg.all := by
  refine ⟨build_ok_pairwiseLt posts reg h, ?_⟩
  intro posts2 reg2 hperm h2
  have hp1 := build_ok_pairwiseLt posts reg h
  have hp2 := build_ok_pairwiseLt posts2 reg2 h2
  have hpm : reg2.all.Perm reg.all :=
    ((build_ok_perm posts2 reg2 h2).trans hperm.symm).trans
      (build_ok_perm posts reg h).symm
  exact eq_of_perm_of_pairwise (fun a b hab => postLt_asymm hab)
    reg2.all reg.all hpm hp2 hp1

/-- Witness for C1 at a concrete two-post input, in both input orders. -/
theorem claim_C1_witness :
    (Registry.mk [pw2, pw1]).all.Pairwise postLt ∧
      (Registry.mk [pw2, pw1]).all = (Registry.mk [pw2, pw1]).all := by
  have h := claim_C1 [pw1, pw2] ⟨[pw2, pw1]⟩ (by decide)
  exact ⟨h.1, h.2 [pw2, pw1] ⟨[pw2, pw1]⟩ (List.Perm.swap pw2 pw1 []) (by decide)⟩

/-- Claim C2: `Registry.build` fails with `DuplicatePathError` exactly when
two input posts share a canonical path; the error names both document
sources and the colliding path; with distinct paths the build succeeds. -/
theorem claim_C2 (posts : List Post) :
    ((∃ r, Registry.build posts = .ok r) ↔
      posts.Pairwise (fun a b => a.path ≠ b.path)) ∧
    ((∃ e, Registry.build posts = .error e) ↔
      ¬ posts.Pairwise (fun a b => a.path ≠ b.path)) ∧
    (∀ e, Registry.build posts = .error e →
      ∃ a b, [a, b].Sublist posts ∧ a.path = b.path ∧
        e = ⟨a.path, a.srcDoc, b.srcDoc⟩) := by
  cases hd : findDup posts with
  | none =>
    have hok : Registry.build posts = .ok ⟨List.insertionSort postLe posts⟩ := by
      rw [Registry.build, hd]
    have hpw := (findDup_none_iff posts).mp hd
    refine ⟨⟨fun _ => hpw, fun _ => ⟨_, hok⟩⟩,
      ⟨fun he => ?_, fun hn => absurd hpw hn⟩, ?_⟩
    · obtain ⟨e, he⟩ := he
      rw [hok] at he
      exact Except.noConfusion he
    · intro e he
      rw [hok] at he
      exact Except.noConfusion he
  | some pq =>
    obtain ⟨a, b⟩ := pq
    have herr : Registry.build posts = .error ⟨a.path, a.srcDoc, b.srcDoc⟩ := by
      rw [Registry.build, hd]
    obtain ⟨hsub, hpath⟩ := findDup_some posts a b hd
    have hnpw : ¬ posts.Pairwise (fun a b => a.path ≠ b.path) := by
      intro hpw
      have hab : List.Pairwise (fun a b => a.path ≠ b.path) [a, b] :=
        hpw.sublist hsub
      exact (List.pairwise_cons.mp hab).1 b (List.mem_cons_self b []) hpath
    refine ⟨⟨fun hr => ?_, fun hpw => absurd hpw hnpw⟩,
      ⟨fun _ => hnpw, fun _ => ⟨_, herr⟩⟩, ?_⟩
    · obtain ⟨r, hr⟩ := hr
      rw [herr] at hr
      exact Except.noConfusion hr
    · intro e he
      rw [herr] at he
      exact ⟨a, b, hsub, hpath, (Except.error.inj he).symm⟩

/-- Witness for C2 at a concrete duplicated-path input. -/
theorem claim_C2_witness :
    ∃ a b, [a, b].Sublist [pw1, pdup] ∧ a.path = b.path ∧
      (⟨"/a", "posts/a.mdx", "posts/c.mdx"⟩ : DuplicatePathError)
        = ⟨a.path, a.srcDoc, b.srcDoc⟩ :=
  (claim_C2 [pw1, pdup]).2.2 ⟨"/a", "posts/a.mdx", "posts/c.mdx"⟩ (by decide)

/-- Claim C3 (amended): `extract` fails with a `missing` error exactly when a
required field is absent or empty; it fails with
`MetadataError(documentPath, "date", invalid)` exactly when all required
fields are present and non-empty but the date is not a valid ISO 8601
calendar date; otherwise it returns a `Post`; a `missing` error names a
field that is indeed absent or empty. -/
theorem claim_C3 (dp : String) (raw : RawMetadata) :
    ((∃ f, extract dp raw = .error ⟨dp, f, .missing⟩) ↔
      (raw.title.getD "" = "" ∨ raw.date.getD "" = "" ∨ raw.desc.getD "" = "")) ∧
    (extract dp raw = .error ⟨dp, "date", .invalid⟩ ↔
      (raw.title.getD "" ≠ "" ∧ raw.date.getD "" ≠ "" ∧ raw.desc.getD "" ≠ "" ∧
        parseDate (raw.date.getD "") = none)) ∧
    ((∃ p, extract dp raw = .ok p) ↔
      (raw.title.getD "" ≠ "" ∧ raw.date.getD "" ≠ "" ∧ raw.desc.getD "" ≠ "" ∧
        (parseDate (raw.date.getD "")).isSome = true)) ∧
    (∀ f, extract dp raw = .error ⟨dp, f, .missing⟩ →
      (f = "title" ∧ raw.title.getD "" = "") ∨
      (f = "date" ∧ raw.date.getD "" = "") ∨
      (f = "desc" ∧ raw.desc.getD "" = "")) := by
  by_cases h1 : raw.title.getD "" = ""
  · have he := extract_title_missing dp h1
    refine ⟨⟨fun _ => Or.inl h1, fun _ => ⟨"title", he⟩⟩, ?_, ?_, ?_⟩
    · rw [he]
      constructor
      · intro hcon
        have hr : Reason.missing = Reason.invalid :=
          congrArg MetadataError.reason (Except.error.inj hcon)
        exact Reason.noConfusion hr
      · rintro ⟨ht, -⟩; exact absurd h1 ht
    · rw [he]
      constructor
      · rintro ⟨p, hp⟩; exact Except.noConfusion hp
      · rintro ⟨ht, -⟩; exact absurd h1 ht
    · intro f hf
      rw [he] at hf
      have hfe : "title" = f :=
        congrArg MetadataError.fieldName (Except.error.inj hf)
      exact Or.inl ⟨hfe.symm, h1⟩
  · by_cases h2 : raw.date.getD "" = ""
    · have he := extract_date_missing dp h1 h2
      refine ⟨⟨fun _ => Or.inr (Or.inl h2), fun _ => ⟨"date", he⟩⟩, ?_, ?_, ?_⟩
      · rw [he]
        constructor
        · intro hcon
          have hr : Reason.missing = Reason.invalid :=
            congrArg MetadataError.reason (Except.error.inj hcon)
          exact Reason.noConfusion hr
        · rintro ⟨-, hd, -⟩; exact absurd h2 hd
      · rw [he]
        constructor
        · rintro ⟨p, hp⟩; exact Except.noConfusion hp
        · rintro ⟨-, hd, -⟩; exact absurd h2 hd
      · intro f hf
        rw [he] at hf
        have hfe : "date" = f :=
          congrArg MetadataError.fieldName (Except.error.inj hf)
        exact Or.inr (Or.inl ⟨hfe.symm, h2⟩)
    · by_cases h3 : raw.desc.getD "" = ""
      · have he := extract_desc_missing dp h1 h2 h3
        refine ⟨⟨fun _ => Or.inr (Or.inr h3), fun _ => ⟨"desc", he⟩⟩, ?_, ?_, ?_⟩
        · rw [he]
          constructor
          · intro hcon
            have hr : Reason.missing = Reason.invalid :=
              congrArg MetadataError.reason (Except.error.inj hcon)
            exact Reason.noConfusion hr
          · rintro ⟨-, -, hd, -⟩; exact absurd h3 hd
        · rw [he]
          constructor
          · rintro ⟨p, hp⟩; exact Except.noConfusion hp
          · rintro ⟨-, -, hd, -⟩; exact absurd h3 hd
        · intro f hf
          rw [he] at hf
          have hfe : "desc" = f :=
            congrArg MetadataError.fieldName (Except.error.inj hf)
          exact Or.inr (Or.inr ⟨hfe.symm, h3⟩)
      · cases hpd : parseDate (raw.date.getD "") with
        | none =>
          have he := extract_invalid dp h1 h2 h3 hpd
          refine ⟨⟨fun hf => ?_, fun hor => ?_⟩,
            ⟨fun _ => ⟨h1, h2, h3, rfl⟩, fun _ => he⟩, ?_, ?_⟩
          · obtain ⟨f, hf⟩ := hf
            rw [he] at hf
            have hr : Reason.invalid = Reason.missing :=
              congrArg MetadataError.reason (Except.error.inj hf)
            exact Reason.noConfusion hr
          · rcases hor with h | h | h
            · exact absurd h h1
            · exact absurd h h2
            · exact absurd h h3
          · rw [he]
            constructor
            · rintro ⟨p, hp⟩; exact Except.noConfusion hp
            · rintro ⟨-, -, -, hsome⟩
              exact Bool.noConfusion hsome
          · intro f hf
            rw [he] at hf
            have hr : Reason.invalid = Reason.missing :=
              congrArg MetadataError.reason (Except.error.inj hf)
            exact Reason.noConfusion hr
        | some d =>
          have he := extract_ok dp h1 h2 h3 hpd
          refine ⟨⟨fun hf => ?_, fun hor => ?_⟩, ?_,
            ⟨fun _ => ⟨h1, h2, h3, rfl⟩, fun _ => ⟨_, he⟩⟩, ?_⟩
          · obtain ⟨f, hf⟩ := hf
            rw [he] at hf
            exact Except.noConfusion hf
          · rcases hor with h | h | h
            · exact absurd h h1
            · exact absurd h h2
            · exact absurd h h3
          · constructor
            · intro hcon
              rw [he] at hcon
              exact Except.noConfusion hcon
            · rintro ⟨-, -, -, h4⟩
              exact Option.noConfusion h4
          · intro f hf
            rw [he] at hf
            exact Except.noConfusion hf

/-- Counterexample to C3 as stated: with the title absent and an unparsable
date, the date value is present, non-empty and not ISO, yet `extract` fails
with the `missing` error for `title`, not with the `invalid` error for
`date`. -/
theorem claim_C3_counterexample :
    (⟨none, some "banana", none, some "d", none⟩ : RawMetadata).date
        = some "banana" ∧
    ("banana" : String) ≠ "" ∧
    parseDate "banana" = none ∧
    extract "doc.mdx" ⟨none, some "banana", none, some "d", none⟩
      = .error ⟨"doc.mdx", "title", .missing⟩ ∧
    extract "doc.mdx" ⟨none, some "banana", none, some "d", none⟩
      ≠ .error ⟨"doc.mdx", "date", .invalid⟩ := by
  refine ⟨rfl, by decide, by decide, by decide, by decide⟩

/-- Witness for C3 at a concrete input missing its description. -/
theorem claim_C3_witness :
    ∃ f, extract "doc.mdx" (⟨some "T", some "2020-01-01", none, none, none⟩ :
      RawMetadata) = .error ⟨"doc.mdx", f, .missing⟩ :=
  (claim_C3 "doc.mdx" ⟨some "T", some "2020-01-01", none, none, none⟩).1.mpr
    (Or.inr (Or.inr rfl))

/-- Claim C4: `byTag` is the order-preserving filter of `all()` to posts
carrying the tag, the tag index yields the same sequence, and an unknown tag
yields an empty sequence rather than an error. -/
theorem claim_C4 (reg : Registry) (t : String) :
    Registry.byTag reg t = reg.all.filter (fun p => p.tags.contains t) ∧
    TagIndex.postsFor (TagIndex.build reg) t = Registry.byTag reg t ∧
    ((∀ p ∈ reg.all, ¬ p.tags.contains t) →
      TagIndex.postsFor (TagIndex.build reg) t = []) := by
  refine ⟨postsFor_eq_filter reg t, rfl, ?_⟩
  intro hnone
  rw [postsFor_eq_filter]
  exact List.filter_eq_nil_iff.mpr hnone

/-- Witness for C4: a carried tag selects its posts in order, an unknown tag
yields the empty sequence. -/
theorem claim_C4_witness :
    Registry.byTag ⟨[pw2, pw1]⟩ "x" = [pw2, pw1] ∧
      TagIndex.postsFor (TagIndex.build ⟨[pw2, pw1]⟩) "zzz" = [] := by
  refine ⟨?_, (claim_C4 ⟨[pw2, pw1]⟩ "zzz").2.2 (by decide)⟩
  rw [(claim_C4 ⟨[pw2, pw1]⟩ "x").1]
  decide

/-- Claim C5: the generated feed contains the channel metadata followed by
exactly one item per post in registry order; each item carries the post
title, the site base + path as its link, the post description, the
wire-format date, and a guid equal to its link; parsing the feed recovers
the ordered (title, link, publication-date) triples of the registry. -/
theorem claim_C5 (reg : Registry) (m : ChannelMeta) :
    parseFeed (generate reg m) = reg.all.map (itemOf m) ∧
    (parseFeed (generate reg m)).map (fun it => (it.title, it.link, it.pubDate))
      = reg.all.map (fun p => (p.title, m.link ++ p.path, wireDate p.date)) ∧
    (parseFeed (generate reg m)).map (fun it => it.guid)
      = (parseFeed (generate reg m)).map (fun it => it.link) ∧
    (parseFeed (generate reg m)).map (fun it => it.desc)
      = reg.all.map (fun p => p.desc) := by
  have h := parseFeed_generate reg m
  refine ⟨h, ?_, ?_, ?_⟩
  · rw [h, List.map_map]; rfl
  · rw [h, List.map_map, List.map_map]; rfl
  · rw [h, List.map_map]; rfl

/-- Claim C6: the pipeline is deterministic — extraction plus aggregation on
identical input yields identical registries, and generation on an identical
registry and channel metadata yields byte-identical output. -/
theorem claim_C6 (docs : List (String × RawMetadata)) (m : ChannelMeta)
    (reg : Registry) :
    pipeline docs = pipeline docs ∧
    (generate reg m).data = (generate reg m).data ∧
    (∀ r1 r2 : Registry, pipeline docs = .ok r1 → pipeline docs = .ok r2 →
      r1 = r2 ∧ generate r1 m = generate r2 m) := by
  refine ⟨rfl, rfl, ?_⟩
  intro r1 r2 hr1 hr2
  rw [hr1] at hr2
  have h12 := Except.ok.inj hr2
  exact ⟨h12, by rw [h12]⟩

/-- Witness for C6 at a concrete one-document input. -/
theorem claim_C6_witness :
    (⟨[postW]⟩ : Registry) = ⟨[postW]⟩ ∧
      generate ⟨[postW]⟩ metaW = generate ⟨[postW]⟩ metaW :=
  (claim_C6 [("posts/a.mdx", rawW)] metaW ⟨[postW]⟩).2.2 ⟨[postW]⟩ ⟨[postW]⟩
    (by decide) (by decide)

/-- Claim C7: `display(d, referenceYear)` renders `"Mon D"` when the year
matches the reference year and `"Mon D, YYYY"` otherwise; with reference
year 2021, 2021-05-11 displays as `"May 11"` and 2019-12-25 as
`"Dec 25, 2019"`. -/
theorem claim_C7 (d : CDate) (refYear : Int) :
    ((d.year : Int) = refYear →
      display d refYear = ⟨monthAbbrL d.month ++ ' ' :: natChars d.day⟩) ∧
    ((d.year : Int) ≠ refYear →
      display d refYear =
        ⟨monthAbbrL d.month ++ ' ' :: natChars d.day ++
          ',' :: ' ' :: natChars d.year⟩) ∧
    display ⟨2021, 5, 11⟩ 2021 = "May 11" ∧
    display ⟨2019, 12, 25⟩ 2021 = "Dec 25, 2019" := by
  refine ⟨?_, ?_, by decide, by decide⟩
  · intro h
    rw [display, displayL, if_pos h, List.append_nil]
  · intro h
    rw [display, displayL, if_neg h]

/-- Witness for C7: the same-year branch applied at 2021-05-11. -/
theorem claim_C7_witness :
    display ⟨2021, 5, 11⟩ 2021 = ⟨monthAbbrL 5 ++ ' ' :: natChars 11⟩ :=
  (claim_C7 ⟨2021, 5, 11⟩ 2021).1 rfl

/-- Claim C8: every derived path starts with exactly one leading `'/'` and
has no trailing `'/'` unless it is the root; `posts/async/index.mdx` yields
`/posts/async` (index collapse) and `posts/k8s.mdx` yields `/posts/k8s`
(extension strip). -/
theorem claim_C8 (doc : String) :
    goodPath (derivePath doc).data ∧
    derivePath "posts/async/index.mdx" = "/posts/async" ∧
    derivePath "posts/k8s.mdx" = "/posts/k8s" :=
  ⟨derivePathL_good doc.data, by decide, by decide⟩

/-- Witness for C8: leading slash of a concrete derived path. -/
theorem claim_C8_witness :
    (derivePath "notes/x.mdx").data.head? = some '/' :=
  (claim_C8 "notes/x.mdx").1.1

/-- Claim C9: extracted tags are the declared tags trimmed of surrounding
whitespace, with empties and later duplicates dropped silently in
first-occurrence order; an absent tags field yields the empty sequence. -/
theorem claim_C9 (dp : String) (raw : RawMetadata) (p : Post)
    (h : extract dp raw = .ok p) :
    p.tags = dedupFirst (((raw.tags.getD []).map trimStr).filter
      (fun t => t ≠ "")) ∧
    p.tags.Nodup ∧ (∀ t ∈ p.tags, t ≠ "") ∧
    (raw.tags = none → p.tags = []) := by
  have htags : p.tags = normalizeTags raw.tags := by
    by_cases h1 : raw.title.getD "" = ""
    · rw [extract_title_missing dp h1] at h; exact Except.noConfusion h
    · by_cases h2 : raw.date.getD "" = ""
      · rw [extract_date_missing dp h1 h2] at h; exact Except.noConfusion h
      · by_cases h3 : raw.desc.getD "" = ""
        · rw [extract_desc_missing dp h1 h2 h3] at h; exact Except.noConfusion h
        · cases hpd : parseDate (raw.date.getD "") with
          | none =>
            rw [extract_invalid dp h1 h2 h3 hpd] at h
            exact Except.noConfusion h
          | some d =>
            rw [extract_ok dp h1 h2 h3 hpd] at h
            rw [← Except.ok.inj h]
  refine ⟨by rw [htags]; rfl, ?_, ?_, ?_⟩
  · rw [htags]
    exact dedupFirst_nodup _
  · intro t ht
    rw [htags] at ht
    have hmem := dedupFirst_subset _ t ht
    have := List.of_mem_filter hmem
    simpa using this
  · intro hn
    rw [htags, hn]
    rfl

/-- Witness for C9 at a concrete raw metadata block with messy tags. -/
theorem claim_C9_witness :
    (⟨"d.mdx", derivePath "d.mdx", "T", ⟨2020, 1, 1⟩,
        ["a", "b"], "D", none⟩ : Post).tags.Nodup := by
  have h := claim_C9 "d.mdx"
    ⟨some "T", some "2020-01-01", some [" a", "a", "", "b", "a "], some "D", none⟩
    ⟨"d.mdx", derivePath "d.mdx", "T", ⟨2020, 1, 1⟩, ["a", "b"], "D", none⟩
    (by decide)
  exact h.2.1

/-- Claim C10: `getStaticProps` computes the post data once and uses that one
value both for the feed written to `./public/index.xml` and for the page's
posts prop, so the home listing and the feed agree on post membership and
order within a build. -/
theorem claim_C10 (postData : Registry) (m : ChannelMeta) :
    (getStaticProps postData m).props = postData.all ∧
    (getStaticProps postData m).writtenPath = "./public/index.xml" ∧
    (getStaticProps postData m).writtenContent
      = generate (Registry.mk ((getStaticProps postData m).props)) m ∧
    parseFeed ((getStaticProps postData m).writtenContent)
      = ((getStaticProps postData m).props).map (itemOf m) :=
  ⟨rfl, rfl, rfl, parseFeed_generate postData m⟩

end Blog
